import Mathlib

/-!
Verification of the `dotenv` header (dotenv-cpp): a shallow embedding of
`dotenv::expand`, `dotenv::strip_quotes`, `dotenv::do_init` and
`dotenv::getenv` over `List Char` strings, together with proofs about them.

Strings are modelled as `List Char`; the process environment is modelled as a
lookup function `List Char → Option (List Char)` (the `EnvironmentView` of the
design: `std::getenv` reads it, `setenv` updates it).
-/

namespace Dotenv

/-- A C++ `std::string`, modelled as its list of characters. -/
abbrev Str := List Char

/-- The process environment: `std::getenv` returns `none` when the variable is
not set, `some v` (possibly the empty string) when it is. -/
abbrev Env := Str → Option Str

/-- The two-character variable-start token `"${"` searched for by
`dotenv::expand` (`str.find("${", pos)`). -/
def marker : Str := ['$', '\x7b']

/-- The one-character token `"}"` searched for by `dotenv::expand`
(`str.find('}', pos)`). -/
def closeBrace : Str := ['\x7d']

/-- The one-character token `"="` searched for by `dotenv::do_init`
(`line.find("=")`). -/
def eqSign : Str := ['=']

/-- Helper for `strFind`: scans the suffix `rem = s.drop i` of the searched
string, returning the absolute index of the first position `≥ i` at which
`pat` occurs.  A position matches when the next `pat.length` characters are
exactly `pat` (which forces the occurrence to fit inside the string). -/
def strFindAux (pat : Str) : Str → Nat → Option Nat
  | [], i => if pat = [] then some i else none
  | c :: t, i => if (c :: t).take pat.length = pat then some i else strFindAux pat t (i + 1)

/-- `std::string::find(pat, pos)` on `s`: the smallest index `j ≥ pos` such
that `pat` occurs at `j` in `s`, or `none` (C++ `npos`) when there is no such
occurrence.  (All uses in this file have `pat ≠ []`.) -/
def strFind (s pat : Str) (pos : Nat) : Option Nat :=
  strFindAux pat (s.drop pos) pos

/-- `dotenv::strip_quotes`: if the string has length at least 2 and its first
and last characters are the same double or single quote, return
`str.substr(1, len - 2)`; otherwise return the string unchanged. -/
def strip_quotes (str : Str) : Str :=
  if h : str.length < 2 then str
  else
    have h0 : 0 < str.length := by omega
    have h1 : str.length - 1 < str.length := by omega
    let first := str[0]
    let last := str[str.length - 1]
    if first = last ∧ ('\x22' = first ∨ '\x27' = first) then (str.drop 1).take (str.length - 2)
    else str

theorem strFindAux_le {pat rem : Str} {i j : Nat} (h : strFindAux pat rem i = some j) :
    i ≤ j := by
  induction rem generalizing i with
  | nil =>
    unfold strFindAux at h
    split at h
    · cases h; omega
    · cases h
  | cons c t ih =>
    unfold strFindAux at h
    split at h
    · cases h; omega
    · have := ih h; omega

theorem strFindAux_shift (pat rem : Str) (i : Nat) :
    strFindAux pat rem i = (strFindAux pat rem 0).map (· + i) := by
  induction rem generalizing i with
  | nil =>
    unfold strFindAux
    split <;> simp
  | cons c t ih =>
    unfold strFindAux
    split
    · simp
    · rw [ih (i + 1), ih 1]
      cases strFindAux pat t 0 <;> simp <;> omega

theorem strFindAux_match {pat rem : Str} {i j : Nat} (h : strFindAux pat rem i = some j) :
    (rem.drop (j - i)).take pat.length = pat := by
  induction rem generalizing i with
  | nil =>
    unfold strFindAux at h
    split at h
    · cases h; simp_all
    · cases h
  | cons c t ih =>
    unfold strFindAux at h
    split at h
    · cases h
      simpa using ‹(c :: t).take pat.length = pat›
    · have hle := strFindAux_le h
      have hstep : j - i = (j - (i + 1)) + 1 := by omega
      rw [hstep]
      simpa using ih h

theorem strFindAux_min {pat rem : Str} {i j : Nat} (h : strFindAux pat rem i = some j) :
    ∀ k, k < j - i → (rem.drop k).take pat.length ≠ pat := by
  induction rem generalizing i with
  | nil =>
    unfold strFindAux at h
    split at h
    · cases h; omega
    · cases h
  | cons c t ih =>
    unfold strFindAux at h
    split at h
    · cases h
      intro k hk
      omega
    · intro k hk
      have hle := strFindAux_le h
      match k with
      | 0 => simpa using ‹¬(c :: t).take pat.length = pat›
      | k + 1 =>
        have := ih h k (by omega)
        simpa using this

theorem strFindAux_none {pat rem : Str} {i : Nat} (h : strFindAux pat rem i = none) :
    ∀ k, (rem.drop k).take pat.length ≠ pat := by
  induction rem generalizing i with
  | nil =>
    unfold strFindAux at h
    split at h
    · cases h
    · intro k hc
      have := congrArg List.length hc
      simp at this
      simp_all
  | cons c t ih =>
    unfold strFindAux at h
    split at h
    · cases h
    · intro k
      match k with
      | 0 => simpa using ‹¬(c :: t).take pat.length = pat›
      | k + 1 => simpa using ih h k

theorem strFind_le {s pat : Str} {pos j : Nat} (h : strFind s pat pos = some j) : pos ≤ j :=
  strFindAux_le h

theorem strFind_match {s pat : Str} {pos j : Nat} (h : strFind s pat pos = some j) :
    (s.drop j).take pat.length = pat := by
  have hle := strFind_le h
  have hm := strFindAux_match h
  rw [List.drop_drop] at hm
  have e : pos + (j - pos) = j := by omega
  rwa [e] at hm

theorem strFind_bound {s pat : Str} {pos j : Nat} (hp : pat ≠ [])
    (h : strFind s pat pos = some j) : j + pat.length ≤ s.length := by
  have hm := strFind_match h
  have hlen := congrArg List.length hm
  rw [List.length_take, List.length_drop] at hlen
  have : 0 < pat.length := List.length_pos.mpr hp
  omega

theorem strFind_min {s pat : Str} {pos j : Nat} (h : strFind s pat pos = some j) :
    ∀ k, pos ≤ k → k < j → (s.drop k).take pat.length ≠ pat := by
  intro k h1 h2
  have hmin := strFindAux_min h (k - pos) (by omega)
  rw [List.drop_drop] at hmin
  have e : pos + (k - pos) = k := by omega
  rwa [e] at hmin

theorem strFind_none {s pat : Str} {pos : Nat} (h : strFind s pat pos = none) :
    ∀ k, pos ≤ k → (s.drop k).take pat.length ≠ pat := by
  intro k h1
  have hnone := strFindAux_none h (k - pos)
  rw [List.drop_drop] at hnone
  have e : pos + (k - pos) = k := by omega
  rwa [e] at hnone

theorem strFind_add (s pat : Str) (k i : Nat) :
    strFind s pat (k + i) = (strFind (s.drop k) pat i).map (· + k) := by
  unfold strFind
  rw [List.drop_drop, strFindAux_shift pat _ (k + i), strFindAux_shift pat _ i]
  rw [Nat.add_comm k i]
  cases strFindAux pat (s.drop (i + k)) 0 <;> simp <;> omega

theorem take_two_eq {l : Str} {a b : Char} (h : l.take 2 = [a, b]) :
    ∃ t, l = a :: b :: t := by
  match l with
  | [] => simp at h
  | [x] => simp at h
  | x :: y :: t =>
    simp [List.take] at h
    exact ⟨t, by simp [h.1, h.2]⟩

theorem take_one_eq {l : Str} {a : Char} (h : l.take 1 = [a]) :
    ∃ t, l = a :: t := by
  match l with
  | [] => simp at h
  | x :: t =>
    simp [List.take] at h
    exact ⟨t, by simp [h]⟩

theorem strFind_succ {s pat : Str} {i : Nat} (hpat : pat ≠ [])
    (hne : (s.drop i).take pat.length ≠ pat) :
    strFind s pat i = strFind s pat (i + 1) := by
  unfold strFind
  have hdrop : s.drop (i + 1) = (s.drop i).drop 1 := (List.drop_drop 1 i s).symm
  cases hd : s.drop i with
  | nil =>
    rw [hd] at hne
    rw [hdrop, hd]
    unfold strFindAux
    simp [hpat]
  | cons c t =>
    rw [hd] at hne
    rw [hdrop, hd]
    conv_lhs => unfold strFindAux
    simp [hne]

theorem strFind_brace_bounds {s : Str} {pos p q : Nat}
    (h1 : strFind s marker pos = some p) (h2 : strFind s closeBrace p = some q) :
    pos ≤ p ∧ p + 2 ≤ q ∧ q + 1 ≤ s.length := by
  have hp := strFind_le h1
  have hq := strFind_le h2
  have hm1 : (s.drop p).take 2 = ['$', '\x7b'] := by
    simpa [marker] using strFind_match h1
  have hm2 : (s.drop q).take 1 = ['\x7d'] := by
    simpa [closeBrace] using strFind_match h2
  have hb : q + 1 ≤ s.length := by
    simpa [closeBrace] using strFind_bound (by simp [closeBrace]) h2
  obtain ⟨t, ht⟩ := take_two_eq hm1
  obtain ⟨t2, ht2⟩ := take_one_eq hm2
  refine ⟨hp, ?_, hb⟩
  by_contra hc
  have hcase : q = p ∨ q = p + 1 := by omega
  rcases hcase with rfl | rfl
  · rw [ht] at ht2
    simp at ht2
  · have hstep : s.drop (p + 1) = '\x7b' :: t := by
      rw [← List.drop_drop 1 p s, ht]
      simp
    rw [hstep] at ht2
    simp at ht2

/-- The `while` loop of `dotenv::expand`, with the C++ locals as arguments:
`pos` is the scan position, `pre_pos` the start of the not-yet-copied chunk,
`expanded` the output buffer, and `nvar` the count of detected-but-unresolved
`${name}` occurrences.  Each iteration looks for `"${"` from `pos`; on a hit
it copies `str.substr(pre_pos, pos - pre_pos)`, looks for `'}'`, and either
substitutes the looked-up value (decrementing `nvar`) or, when the lookup
fails, appends nothing.  When no `'}'` is ever found, `pre_pos` is left
unchanged and the loop exits on the next iteration, after which the trailing
`str.substr(pre_pos)` is appended (a second time).  The final
`expanded += str.substr(pre_pos)` of the C++ is inlined into each exit path. -/
def expandLoop (env : Env) (s : Str) (pos pre_pos : Nat) (expanded : Str) (nvar : Nat) :
    Str × Nat :=
  match h1 : strFind s marker pos with
  | none => (expanded ++ s.drop pre_pos, nvar)
  | some p =>
    match h2 : strFind s closeBrace p with
    | none => (expanded ++ (s.drop pre_pos).take (p - pre_pos) ++ s.drop pre_pos, nvar + 1)
    | some q =>
      let var := (s.drop p).take (q - p + 1)
      let name := (var.drop 2).take (var.length - 3)
      match env name with
      | some v =>
        expandLoop env s q (q + 1)
          (expanded ++ (s.drop pre_pos).take (p - pre_pos) ++ v) (nvar + 1 - 1)
      | none =>
        expandLoop env s q (q + 1)
          (expanded ++ (s.drop pre_pos).take (p - pre_pos)) (nvar + 1)
termination_by s.length - pos
decreasing_by
  all_goals
    obtain ⟨ha, hb, hc⟩ := strFind_brace_bounds h1 h2
    omega

/-- `dotenv::expand`: expand `${name}` references in `str` against the
environment `env`.  The `iline` argument only feeds the diagnostic output
stream in the C++, so the returned pair does not depend on it.  Returns the
rebuilt string together with `ok = (nvar == 0)`. -/
def expand (env : Env) (iline : Nat) (str : Str) : Str × Bool :=
  let r := expandLoop env str 0 0 [] 0
  (r.1, r.2 == 0)

/-- `dotenv::Preserve = 1 << 0`. -/
def Preserve : Int := 1 <<< 0

/-- `dotenv::OptionsNone = 0`. -/
def OptionsNone : Int := 0

/-- The third argument `do_init` passes to `setenv`, namely
`~flags & dotenv::Preserve`: on two's-complement integers `~flags = -(flags + 1)`
and masking with `Preserve = 1` keeps the lowest bit, i.e. `· mod 2`. -/
def overwriteArg (flags : Int) : Int := (-(flags + 1)).emod 2

/-- POSIX `setenv(name, value, overwrite)` acting on the modelled environment:
it fails with `EINVAL` (environment unchanged) when `name` is empty or
contains `'='`; when `overwrite` is zero and `name` is already present (even
with an empty value) the environment is unchanged; otherwise the binding is
added or updated. -/
def setenv (env : Env) (name value : Str) (overwrite : Int) : Env :=
  if name = [] ∨ ('=' : Char) ∈ name then env
  else if overwrite = 0 ∧ (env name).isSome then env
  else fun n => if n = name then some value else env n

/-- The body of the `while (getline(file, line))` loop of `dotenv::do_init`:
find the first `'='`; without one the line is ignored (after a diagnostic);
otherwise split into `name` and `line.substr(pos + 1)`, strip quotes, expand,
and on successful expansion call `setenv(name, val, ~flags & Preserve)`; a
failed expansion only produces a diagnostic. -/
def do_init_line (flags : Int) (env : Env) (i : Nat) (line : Str) : Env :=
  match strFind line eqSign 0 with
  | none => env
  | some pos =>
    let name := line.take pos
    let line_stripped := strip_quotes (line.drop (pos + 1))
    let p := expand env i line_stripped
    if p.2 then setenv env name p.1 (overwriteArg flags) else env

/-- The line loop of `dotenv::do_init`, threading the line counter `i`
(starting at 1) and the environment through the file's lines. -/
def do_init_loop (flags : Int) : List Str → Nat → Env → Env
  | [], _, env => env
  | line :: rest, i, env => do_init_loop flags rest (i + 1) (do_init_line flags env i line)

/-- `dotenv::do_init` on the list of lines read from the file (the file I/O
itself is glue; an unreadable file simply yields no lines). -/
def do_init (flags : Int) (lines : List Str) (env : Env) : Env :=
  do_init_loop flags lines 1 env

/-- `dotenv::getenv(name, def)`: wraps the environment lookup, returning `def`
when `std::getenv` returns null (variable not set) and the stored string
otherwise. -/
def getenv (env : Env) (name dflt : Str) : Str :=
  match env name with
  | some v => v
  | none => dflt

/-- Whether the two-character variable-start token `"${"` occurs anywhere in
`s`, expressed with the same search the code uses. -/
def hasMarker (s : Str) : Bool :=
  (strFind s marker 0).isSome

/-- Reference-by-reference restatement of the `expand` loop, used to reason
about it (proved equivalent in `expandLoop_eq`): find the first `"${"`; if
none, the string is finished with no failures; if it has no matching `'}'`,
the C++ loop re-appends the whole remainder after the already-copied chunk
`s.take p` and counts one failure; otherwise the enclosed name is looked up,
the prefix and (on success) the value are emitted, and the scan continues
after the `'}'`. -/
def expandSpec (env : Env) (s : Str) : Str × Nat :=
  match h1 : strFind s marker 0 with
  | none => (s, 0)
  | some p =>
    match h2 : strFind s closeBrace p with
    | none => (s.take p ++ s, 1)
    | some q =>
      let name := (s.drop (p + 2)).take (q - (p + 2))
      let rest := expandSpec env (s.drop (q + 1))
      match env name with
      | some v => (s.take p ++ v ++ rest.1, rest.2)
      | none => (s.take p ++ rest.1, rest.2 + 1)
termination_by s.length
decreasing_by
  obtain ⟨ha, hb, hc⟩ := strFind_brace_bounds h1 h2
  simp only [List.length_drop]
  omega

theorem expand_name_eq {s : Str} {p q : Nat} (hpq : p + 2 ≤ q) (hq : q + 1 ≤ s.length) :
    (((s.drop p).take (q - p + 1)).drop 2).take (((s.drop p).take (q - p + 1)).length - 3)
      = (s.drop (p + 2)).take (q - (p + 2)) := by
  have hlen : ((s.drop p).take (q - p + 1)).length = q - p + 1 := by
    rw [List.length_take, List.length_drop]
    omega
  rw [hlen, List.drop_take, List.drop_drop, List.take_take]
  congr 1
  omega

theorem expandLoop_none {env : Env} {s : Str} {pos pre_pos : Nat} {expanded : Str} {nvar : Nat}
    (h : strFind s marker pos = none) :
    expandLoop env s pos pre_pos expanded nvar = (expanded ++ s.drop pre_pos, nvar) := by
  rw [expandLoop]
  split
  · rfl
  · simp_all

theorem expandLoop_close_none {env : Env} {s : Str} {pos pre_pos : Nat} {expanded : Str}
    {nvar p : Nat} (h1 : strFind s marker pos = some p) (h2 : strFind s closeBrace p = none) :
    expandLoop env s pos pre_pos expanded nvar =
      (expanded ++ (s.drop pre_pos).take (p - pre_pos) ++ s.drop pre_pos, nvar + 1) := by
  rw [expandLoop]
  split
  · simp_all
  · rename_i p' hp1
    rw [h1] at hp1
    obtain rfl := Option.some.inj hp1
    split
    · rfl
    · simp_all

theorem expandLoop_step {env : Env} {s : Str} {pos pre_pos : Nat} {expanded : Str}
    {nvar p q : Nat} (h1 : strFind s marker pos = some p)
    (h2 : strFind s closeBrace p = some q) :
    expandLoop env s pos pre_pos expanded nvar =
      match env ((s.drop (p + 2)).take (q - (p + 2))) with
      | some v =>
        expandLoop env s q (q + 1)
          (expanded ++ (s.drop pre_pos).take (p - pre_pos) ++ v) (nvar + 1 - 1)
      | none =>
        expandLoop env s q (q + 1)
          (expanded ++ (s.drop pre_pos).take (p - pre_pos)) (nvar + 1) := by
  obtain ⟨ha, hb, hc⟩ := strFind_brace_bounds h1 h2
  rw [expandLoop]
  split
  · simp_all
  · rename_i p' hp1
    rw [h1] at hp1
    obtain rfl := Option.some.inj hp1
    split
    · simp_all
    · rename_i q' hq1
      rw [h2] at hq1
      obtain rfl := Option.some.inj hq1
      dsimp only
      rw [expand_name_eq hb hc]

theorem expandSpec_nomatch {env : Env} {s : Str} (h : strFind s marker 0 = none) :
    expandSpec env s = (s, 0) := by
  rw [expandSpec]
  split
  · rfl
  · simp_all

theorem expandSpec_close_none {env : Env} {s : Str} {p : Nat}
    (h1 : strFind s marker 0 = some p) (h2 : strFind s closeBrace p = none) :
    expandSpec env s = (s.take p ++ s, 1) := by
  rw [expandSpec]
  split
  · simp_all
  · rename_i p' hp1
    rw [h1] at hp1
    obtain rfl := Option.some.inj hp1
    split
    · rfl
    · simp_all

theorem expandSpec_step {env : Env} {s : Str} {p q : Nat}
    (h1 : strFind s marker 0 = some p) (h2 : strFind s closeBrace p = some q) :
    expandSpec env s =
      match env ((s.drop (p + 2)).take (q - (p + 2))) with
      | some v =>
        (s.take p ++ v ++ (expandSpec env (s.drop (q + 1))).1,
          (expandSpec env (s.drop (q + 1))).2)
      | none =>
        (s.take p ++ (expandSpec env (s.drop (q + 1))).1,
          (expandSpec env (s.drop (q + 1))).2 + 1) := by
  rw [expandSpec]
  split
  · simp_all
  · rename_i p' hp1
    rw [h1] at hp1
    obtain rfl := Option.some.inj hp1
    split
    · simp_all
    · rename_i q' hq1
      rw [h2] at hq1
      obtain rfl := Option.some.inj hq1
      rfl

theorem strFind_drop_none {s pat : Str} {k i : Nat} (h : strFind s pat (k + i) = none) :
    strFind (s.drop k) pat i = none := by
  have hadd := strFind_add s pat k i
  rw [h] at hadd
  cases hx : strFind (s.drop k) pat i with
  | none => rfl
  | some y => rw [hx] at hadd; simp at hadd

theorem strFind_drop_some {s pat : Str} {k i j : Nat} (h : strFind s pat (k + i) = some j) :
    strFind (s.drop k) pat i = some (j - k) ∧ k ≤ j := by
  have hadd := strFind_add s pat k i
  rw [h] at hadd
  cases hx : strFind (s.drop k) pat i with
  | none => rw [hx] at hadd; simp at hadd
  | some y =>
    rw [hx] at hadd
    simp at hadd
    constructor
    · congr 1; omega
    · omega

theorem strFind_succ_of_close {s : Str} {p q : Nat} (h : strFind s closeBrace p = some q) :
    strFind s marker q = strFind s marker (q + 1) := by
  have hm : (s.drop q).take 1 = ['\x7d'] := by
    simpa [closeBrace] using strFind_match h
  obtain ⟨t, ht⟩ := take_one_eq hm
  apply strFind_succ (by simp [marker])
  rw [ht]
  simp [marker]

/-- The loop of `expand`, started anywhere with the loop invariant (no `"${"`
occurrence between the scan position and the uncopied-chunk start), appends to
the buffer exactly what the reference-by-reference scan of the remaining
suffix produces, and adds its failure count to `nvar`. -/
theorem expandLoop_eq (env : Env) (s : Str) (pos pre_pos : Nat) (expanded : Str) (nvar : Nat)
    (hinv : strFind s marker pos = strFind s marker pre_pos) :
    expandLoop env s pos pre_pos expanded nvar =
      (expanded ++ (expandSpec env (s.drop pre_pos)).1,
        nvar + (expandSpec env (s.drop pre_pos)).2) := by
  cases hm : strFind s marker pos with
  | none =>
    rw [expandLoop_none hm]
    have hm' : strFind s marker pre_pos = none := by rw [← hinv]; exact hm
    have hd : strFind (s.drop pre_pos) marker 0 = none :=
      strFind_drop_none (by simpa using hm')
    rw [expandSpec_nomatch hd]
    simp
  | some p =>
    have hm' : strFind s marker pre_pos = some p := by rw [← hinv]; exact hm
    obtain ⟨hd, hdle⟩ := strFind_drop_some (k := pre_pos) (i := 0) (by simpa using hm')
    cases hcl : strFind s closeBrace p with
    | none =>
      rw [expandLoop_close_none hm hcl]
      have hcld : strFind (s.drop pre_pos) closeBrace (p - pre_pos) = none :=
        strFind_drop_none (by rw [show pre_pos + (p - pre_pos) = p by omega]; exact hcl)
      rw [expandSpec_close_none hd hcld]
      simp [List.append_assoc]
    | some q =>
      obtain ⟨hpos_p, hpq, hql⟩ := strFind_brace_bounds hm hcl
      obtain ⟨hcld, _⟩ := strFind_drop_some (k := pre_pos) (i := p - pre_pos)
        (by rw [show pre_pos + (p - pre_pos) = p by omega]; exact hcl)
      rw [expandLoop_step hm hcl, expandSpec_step hd hcld]
      have hname : ((s.drop pre_pos).drop (p - pre_pos + 2)).take
            ((q - pre_pos) - (p - pre_pos + 2)) = (s.drop (p + 2)).take (q - (p + 2)) := by
        rw [List.drop_drop]
        congr 1
        · omega
        · congr 1
          omega
      rw [hname]
      have hrest : (s.drop pre_pos).drop ((q - pre_pos) + 1) = s.drop (q + 1) := by
        rw [List.drop_drop]
        congr 1
        omega
      rw [hrest]
      have htake : (s.drop pre_pos).take (p - pre_pos) =
          (s.drop pre_pos).take (p - pre_pos) := rfl
      have hinv' : strFind s marker q = strFind s marker (q + 1) :=
        strFind_succ_of_close hcl
      cases he : env ((s.drop (p + 2)).take (q - (p + 2))) with
      | some v =>
        dsimp only
        rw [expandLoop_eq env s q (q + 1)
          (expanded ++ (s.drop pre_pos).take (p - pre_pos) ++ v) (nvar + 1 - 1) hinv']
        simp [List.append_assoc]
      | none =>
        dsimp only
        rw [expandLoop_eq env s q (q + 1)
          (expanded ++ (s.drop pre_pos).take (p - pre_pos)) (nvar + 1) hinv']
        simp [List.append_assoc]
        omega
termination_by s.length - pos
decreasing_by
  all_goals omega

/-- `dotenv::expand` computes exactly the reference-by-reference scan
`expandSpec`: the value is the scan's rebuilt string, and `ok` is the test
`nvar == 0` on the scan's failure count. -/
theorem expand_eq_spec (env : Env) (iline : Nat) (s : Str) :
    expand env iline s = ((expandSpec env s).1, (expandSpec env s).2 == 0) := by
  unfold expand
  rw [expandLoop_eq env s 0 0 [] 0 rfl]
  simp

theorem strFindAux_single_none {c : Char} {rem : Str} {i : Nat} (h : c ∉ rem) :
    strFindAux [c] rem i = none := by
  induction rem generalizing i with
  | nil =>
    unfold strFindAux
    simp
  | cons d t ih =>
    simp at h
    unfold strFindAux
    rw [if_neg (by simp [List.take]; intro e; exact absurd e.symm h.1), ih h.2]

theorem strFindAux_single_first {c : Char} {u w : Str} {i : Nat} (h : c ∉ u) :
    strFindAux [c] (u ++ c :: w) i = some (i + u.length) := by
  induction u generalizing i with
  | nil =>
    simp only [List.nil_append]
    unfold strFindAux
    simp [List.take]
  | cons d t ih =>
    simp at h
    simp only [List.cons_append]
    unfold strFindAux
    rw [if_neg (by simp [List.take]; intro e; exact absurd e.symm h.1), ih h.2]
    congr 1
    simp
    omega

theorem strFindAux_marker_first {u w : Str} {i : Nat}
    (h : ∀ l r : Str, u ≠ l ++ '$' :: '\x7b' :: r) :
    strFindAux marker (u ++ '$' :: '\x7b' :: w) i = some (i + u.length) := by
  induction u generalizing i with
  | nil =>
    simp only [List.nil_append]
    unfold strFindAux
    rw [if_pos (by simp [marker, List.take])]
    simp
  | cons d t ih =>
    have h2 : ∀ l r : Str, t ≠ l ++ '$' :: '\x7b' :: r := by
      intro l r he
      exact h (d :: l) r (by simp [he])
    simp only [List.cons_append]
    unfold strFindAux
    rw [if_neg, ih h2]
    · congr 1
      simp
      omega
    · intro hc
      obtain ⟨t', ht'⟩ := take_two_eq
        (show (d :: (t ++ '$' :: '\x7b' :: w)).take 2 = ['$', '\x7b'] from hc)
      cases t with
      | nil =>
        simp only [List.nil_append, List.cons.injEq] at ht'
        exact absurd ht'.2.1 (by decide)
      | cons e t2 =>
        simp only [List.cons_append, List.cons.injEq] at ht'
        exact h [] t2 (by simp [ht'.1, ht'.2.1])

theorem strFindAux_marker_none {rem : Str} {i : Nat}
    (h : ∀ l r : Str, rem ≠ l ++ '$' :: '\x7b' :: r) :
    strFindAux marker rem i = none := by
  induction rem generalizing i with
  | nil =>
    unfold strFindAux
    simp [marker]
  | cons d t ih =>
    unfold strFindAux
    rw [if_neg, ih]
    · intro l r he
      exact h (d :: l) r (by simp [he])
    · intro hc
      obtain ⟨t', ht'⟩ := take_two_eq (show (d :: t).take 2 = ['$', '\x7b'] from hc)
      exact h [] t' (by simp [ht'])

theorem strFindAux_marker_isSome (l r : Str) (i : Nat) :
    (strFindAux marker (l ++ '$' :: '\x7b' :: r) i).isSome = true := by
  induction l generalizing i with
  | nil =>
    simp only [List.nil_append]
    unfold strFindAux
    rw [if_pos (by simp [marker, List.take])]
    simp
  | cons d t ih =>
    simp only [List.cons_append]
    unfold strFindAux
    split
    · simp
    · exact ih (i + 1)

theorem hasMarker_false_iff {s : Str} :
    hasMarker s = false ↔ ∀ l r : Str, s ≠ l ++ '$' :: '\x7b' :: r := by
  unfold hasMarker strFind
  simp only [List.drop_zero]
  constructor
  · intro h l r he
    have := strFindAux_marker_isSome l r 0
    rw [← he] at this
    rw [this] at h
    cases h
  · intro h
    rw [strFindAux_marker_none h]
    rfl

theorem strFind_marker_prefix {a r : Str} (ha : hasMarker a = false) :
    strFind (a ++ '$' :: '\x7b' :: r) marker 0 = some a.length := by
  unfold strFind
  simp only [List.drop_zero]
  simpa using strFindAux_marker_first (w := r) (i := 0) (hasMarker_false_iff.mp ha)

theorem strFind_close_at {a nm b : Str} (hn : ('\x7d' : Char) ∉ nm) :
    strFind (a ++ '$' :: '\x7b' :: (nm ++ '\x7d' :: b)) closeBrace a.length
      = some (a.length + (nm.length + 2)) := by
  unfold strFind
  rw [List.drop_left]
  have hnotin : ('\x7d' : Char) ∉ ('$' :: '\x7b' :: nm) := by
    simp [hn]
  have h := strFindAux_single_first (c := '\x7d') (u := '$' :: '\x7b' :: nm) (w := b)
    (i := a.length) hnotin
  simp only [closeBrace]
  simp only [List.cons_append] at h
  rw [h]
  congr 1

theorem strFind_close_gone {a b : Str} (hb : ('\x7d' : Char) ∉ b) :
    strFind (a ++ '$' :: '\x7b' :: b) closeBrace a.length = none := by
  unfold strFind
  rw [List.drop_left]
  have hnotin : ('\x7d' : Char) ∉ ('$' :: '\x7b' :: b) := by
    simp [hb]
  simpa only [closeBrace] using strFindAux_single_none hnotin

theorem expandSpec_no_marker (env : Env) {s : Str} (h : hasMarker s = false) :
    expandSpec env s = (s, 0) := by
  apply expandSpec_nomatch
  unfold hasMarker at h
  cases hx : strFind s marker 0 with
  | none => rfl
  | some y =>
    rw [hx] at h
    cases h

theorem expandSpec_resolved (env : Env) {a nm v b : Str}
    (ha : hasMarker a = false) (hn : ('\x7d' : Char) ∉ nm) (hv : env nm = some v) :
    expandSpec env (a ++ '$' :: '\x7b' :: (nm ++ '\x7d' :: b))
      = (a ++ v ++ (expandSpec env b).1, (expandSpec env b).2) := by
  have h1 := strFind_marker_prefix (r := nm ++ '\x7d' :: b) ha
  have h2 := strFind_close_at (a := a) (b := b) hn
  rw [expandSpec_step h1 h2]
  have hdrop2 : (a ++ '$' :: '\x7b' :: (nm ++ '\x7d' :: b)).drop (a.length + 2)
      = nm ++ '\x7d' :: b := by
    rw [show a ++ '$' :: '\x7b' :: (nm ++ '\x7d' :: b)
        = (a ++ ['$', '\x7b']) ++ (nm ++ '\x7d' :: b) by simp]
    rw [show a.length + 2 = (a ++ ['$', '\x7b']).length by simp]
    exact List.drop_left _ _
  have hname : ((a ++ '$' :: '\x7b' :: (nm ++ '\x7d' :: b)).drop (a.length + 2)).take
      ((a.length + (nm.length + 2)) - (a.length + 2)) = nm := by
    rw [hdrop2, show (a.length + (nm.length + 2)) - (a.length + 2) = nm.length by omega]
    exact List.take_left nm _
  rw [hname, hv]
  have hrest : (a ++ '$' :: '\x7b' :: (nm ++ '\x7d' :: b)).drop (a.length + (nm.length + 2) + 1)
      = b := by
    rw [show a ++ '$' :: '\x7b' :: (nm ++ '\x7d' :: b)
        = (a ++ '$' :: '\x7b' :: nm ++ ['\x7d']) ++ b by simp]
    rw [show a.length + (nm.length + 2) + 1 = (a ++ '$' :: '\x7b' :: nm ++ ['\x7d']).length by
      simp
      omega]
    exact List.drop_left _ _
  rw [hrest]
  have htake : (a ++ '$' :: '\x7b' :: (nm ++ '\x7d' :: b)).take a.length = a :=
    List.take_left a _
  rw [htake]

theorem expandSpec_unresolved (env : Env) {a nm b : Str}
    (ha : hasMarker a = false) (hn : ('\x7d' : Char) ∉ nm) (hv : env nm = none) :
    expandSpec env (a ++ '$' :: '\x7b' :: (nm ++ '\x7d' :: b))
      = (a ++ (expandSpec env b).1, (expandSpec env b).2 + 1) := by
  have h1 := strFind_marker_prefix (r := nm ++ '\x7d' :: b) ha
  have h2 := strFind_close_at (a := a) (b := b) hn
  rw [expandSpec_step h1 h2]
  have hdrop2 : (a ++ '$' :: '\x7b' :: (nm ++ '\x7d' :: b)).drop (a.length + 2)
      = nm ++ '\x7d' :: b := by
    rw [show a ++ '$' :: '\x7b' :: (nm ++ '\x7d' :: b)
        = (a ++ ['$', '\x7b']) ++ (nm ++ '\x7d' :: b) by simp]
    rw [show a.length + 2 = (a ++ ['$', '\x7b']).length by simp]
    exact List.drop_left _ _
  have hname : ((a ++ '$' :: '\x7b' :: (nm ++ '\x7d' :: b)).drop (a.length + 2)).take
      ((a.length + (nm.length + 2)) - (a.length + 2)) = nm := by
    rw [hdrop2, show (a.length + (nm.length + 2)) - (a.length + 2) = nm.length by omega]
    exact List.take_left nm _
  rw [hname, hv]
  have hrest : (a ++ '$' :: '\x7b' :: (nm ++ '\x7d' :: b)).drop (a.length + (nm.length + 2) + 1)
      = b := by
    rw [show a ++ '$' :: '\x7b' :: (nm ++ '\x7d' :: b)
        = (a ++ '$' :: '\x7b' :: nm ++ ['\x7d']) ++ b by simp]
    rw [show a.length + (nm.length + 2) + 1 = (a ++ '$' :: '\x7b' :: nm ++ ['\x7d']).length by
      simp
      omega]
    exact List.drop_left _ _
  rw [hrest]
  have htake : (a ++ '$' :: '\x7b' :: (nm ++ '\x7d' :: b)).take a.length = a :=
    List.take_left a _
  rw [htake]

theorem expandSpec_unterminated (env : Env) {a b : Str}
    (ha : hasMarker a = false) (hb : ('\x7d' : Char) ∉ b) :
    expandSpec env (a ++ '$' :: '\x7b' :: b) = (a ++ (a ++ '$' :: '\x7b' :: b), 1) := by
  have h1 := strFind_marker_prefix (r := b) ha
  have h2 := strFind_close_gone (a := a) hb
  rw [expandSpec_close_none h1 h2]
  rw [List.take_left a _]

/-- A raw value without the `"${"` token is passed through unchanged and
counts as fully expanded. -/
theorem expand_no_marker (env : Env) (iline : Nat) {s : Str} (h : hasMarker s = false) :
    expand env iline s = (s, true) := by
  rw [expand_eq_spec, expandSpec_no_marker env h]
  rfl

theorem marker_split {u w l r : Str} (h : u ++ w = l ++ '$' :: '\x7b' :: r) :
    (∃ l1 r1 : Str, u = l1 ++ '$' :: '\x7b' :: r1) ∨
    (∃ l2 r2 : Str, w = l2 ++ '$' :: '\x7b' :: r2) ∨
    ((∃ l1 : Str, u = l1 ++ ['$']) ∧ ∃ r2 : Str, w = '\x7b' :: r2) := by
  induction u generalizing l with
  | nil =>
    right
    left
    exact ⟨l, r, by simpa using h⟩
  | cons c u' ih =>
    cases l with
    | nil =>
      simp only [List.cons_append, List.nil_append, List.cons.injEq] at h
      obtain ⟨hc, hrest⟩ := h
      cases u' with
      | nil =>
        right
        right
        refine ⟨⟨[], by simp [hc]⟩, ?_⟩
        simp only [List.nil_append] at hrest
        exact ⟨r, hrest⟩
      | cons d u'' =>
        simp only [List.cons_append, List.cons.injEq] at hrest
        left
        exact ⟨[], u'', by simp [hc, hrest.1]⟩
    | cons e l' =>
      simp only [List.cons_append, List.cons.injEq] at h
      obtain ⟨hce, hrest⟩ := h
      rcases ih hrest with ⟨l1, r1, h1⟩ | h2 | ⟨⟨l1, h1⟩, h2⟩
      · left
        exact ⟨c :: l1, r1, by simp [h1]⟩
      · right
        left
        exact h2
      · right
        right
        exact ⟨⟨c :: l1, by simp [h1]⟩, h2⟩

theorem hasMarker_append_false {a v t : Str}
    (ha : hasMarker a = false) (hv : v ≠ []) (hd : ('$' : Char) ∉ v)
    (hb : ('\x7b' : Char) ∉ v) (ht : hasMarker t = false) :
    hasMarker (a ++ v ++ t) = false := by
  rw [hasMarker_false_iff] at ha ht ⊢
  intro l r hlr
  rw [List.append_assoc] at hlr
  rcases marker_split hlr with ⟨l1, r1, h1⟩ | ⟨l2, r2, h2⟩ | ⟨⟨l1, h1⟩, r2, h2⟩
  · exact ha l1 r1 h1
  · rcases marker_split h2 with ⟨l3, r3, h3⟩ | ⟨l4, r4, h4⟩ | ⟨⟨l3, h3⟩, r4, h4⟩
    · exact hd (by rw [h3]; simp)
    · exact ht l4 r4 h4
    · exact hd (by rw [h3]; simp)
  · cases v with
    | nil => exact hv rfl
    | cons x v' =>
      simp only [List.cons_append, List.cons.injEq] at h2
      exact hb (by simp [h2.1])

theorem hasMarker_take_of_first {s : Str} {p : Nat} (hm : strFind s marker 0 = some p) :
    hasMarker (s.take p) = false := by
  rw [hasMarker_false_iff]
  intro l r h
  have hp2 : p + 2 ≤ s.length := by
    have := strFind_bound (by simp [marker]) hm
    simpa [marker] using this
  have htl : (s.take p).length = p := by
    simp
    omega
  have hlen : l.length + 2 ≤ p := by
    have := congrArg List.length h
    rw [htl] at this
    simp at this
    omega
  have hs : s = l ++ '$' :: '\x7b' :: (r ++ s.drop p) := by
    conv_lhs => rw [← List.take_append_drop p s]
    rw [h]
    simp
  have hmatch : (s.drop l.length).take marker.length = marker := by
    conv_lhs => rw [hs, List.drop_left]
    simp [marker, List.take]
  exact strFind_min hm l.length (Nat.zero_le _) (by omega) hmatch

/-- When every value in the environment is nonempty and free of `'$'` and
`'{'`, a fully successful scan produces a string with no `"${"` occurrence. -/
theorem expandSpec_clean (env : Env)
    (henv : ∀ n v : Str, env n = some v → v ≠ [] ∧ ('$' : Char) ∉ v ∧ ('\x7b' : Char) ∉ v)
    (s : Str) (h0 : (expandSpec env s).2 = 0) : hasMarker (expandSpec env s).1 = false := by
  cases hm : strFind s marker 0 with
  | none =>
    rw [expandSpec_nomatch hm]
    unfold hasMarker
    rw [hm]
    rfl
  | some p =>
    cases hc : strFind s closeBrace p with
    | none =>
      rw [expandSpec_close_none hm hc] at h0
      simp at h0
    | some q =>
      have hstep := @expandSpec_step env s p q hm hc
      cases he : env ((s.drop (p + 2)).take (q - (p + 2))) with
      | none =>
        rw [hstep] at h0
        simp only [he] at h0
        simp at h0
      | some v =>
        rw [hstep] at h0 ⊢
        simp only [he] at h0 ⊢
        have hrec := expandSpec_clean env henv (s.drop (q + 1)) h0
        obtain ⟨hvne, hvd, hvb⟩ := henv _ _ he
        exact hasMarker_append_false (hasMarker_take_of_first hm) hvne hvd hvb hrec
termination_by s.length
decreasing_by
  obtain ⟨ha, hb2, hc2⟩ := strFind_brace_bounds hm hc
  simp only [List.length_drop]
  omega

theorem strFind_eq_at {x v : Str} (hx : ('=' : Char) ∉ x) :
    strFind (x ++ '=' :: v) eqSign 0 = some x.length := by
  unfold strFind
  simp only [List.drop_zero, eqSign]
  simpa using strFindAux_single_first (c := '=') (w := v) (i := 0) hx

theorem line_value_drop {x v : Str} {c : Char} :
    (x ++ c :: v).drop (x.length + 1) = v := by
  rw [show x ++ c :: v = (x ++ [c]) ++ v by simp]
  rw [show x.length + 1 = (x ++ [c]).length by simp]
  exact List.drop_left _ _

theorem do_init_line_sets {flags : Int} {env : Env} {i : Nat} {x v w : Str}
    (hx : ('=' : Char) ∉ x)
    (hexp : expand env i (strip_quotes v) = (w, true)) :
    do_init_line flags env i (x ++ '=' :: v) = setenv env x w (overwriteArg flags) := by
  unfold do_init_line
  rw [strFind_eq_at hx]
  dsimp only
  rw [List.take_left x, line_value_drop, hexp]
  rfl

theorem do_init_line_skips {flags : Int} {env : Env} {i : Nat} {x v w : Str}
    (hx : ('=' : Char) ∉ x)
    (hexp : expand env i (strip_quotes v) = (w, false)) :
    do_init_line flags env i (x ++ '=' :: v) = env := by
  unfold do_init_line
  rw [strFind_eq_at hx]
  dsimp only
  rw [List.take_left x, line_value_drop, hexp]
  rfl

theorem do_init_single {flags : Int} {env : Env} {l : Str} :
    do_init flags [l] env = do_init_line flags env 1 l := rfl

theorem overwriteArg_none : overwriteArg OptionsNone = 1 := by decide

theorem overwriteArg_preserve : overwriteArg Preserve = 0 := by decide

theorem setenv_overwrite_lookup {env : Env} {x w : Str} (hxne : x ≠ [])
    (hx : ('=' : Char) ∉ x) : setenv env x w 1 x = some w := by
  unfold setenv
  rw [if_neg (by simp [hxne, hx])]
  rw [if_neg (by simp)]
  simp

theorem setenv_preserve_lookup {env : Env} {x w old : Str} (hold : env x = some old) :
    setenv env x w 0 x = some old := by
  unfold setenv
  split
  · exact hold
  · rw [if_pos ⟨rfl, by simp [hold]⟩]
    exact hold

theorem strip_quotes_wrap {c : Char} (hq : c = '\x22' ∨ c = '\x27') (inner : Str) :
    strip_quotes (c :: (inner ++ [c])) = inner := by
  have hlen : (c :: (inner ++ [c])).length = inner.length + 2 := by simp
  unfold strip_quotes
  split
  · rename_i hlt
    rw [hlen] at hlt
    omega
  · rename_i hge
    dsimp only
    have hfirst : (c :: (inner ++ [c]))[0] = c := rfl
    have hgl : (c :: (inner ++ [c])).getLast? = some c := by
      rw [show c :: (inner ++ [c]) = (c :: inner) ++ [c] from by simp]
      exact List.getLast?_concat _
    have hgl2 : (c :: (inner ++ [c])).getLast? =
        some ((c :: (inner ++ [c]))[(c :: (inner ++ [c])).length - 1]) := by
      rw [List.getLast?_eq_getElem?, List.getElem?_eq_getElem (by rw [hlen]; omega)]
    have hlast : (c :: (inner ++ [c]))[(c :: (inner ++ [c])).length - 1] = c := by
      rw [hgl] at hgl2
      exact (Option.some.inj hgl2).symm
    rw [if_pos]
    · rw [show (c :: (inner ++ [c])).drop 1 = inner ++ [c] from rfl, hlen]
      rw [show inner.length + 2 - 2 = inner.length from by omega]
      exact List.take_left inner _
    · refine ⟨by rw [hfirst, hlast], ?_⟩
      rcases hq with rfl | rfl
      · left
        rw [hfirst]
      · right
        rw [hfirst]

/-- The empty environment: no variable is set. -/
def env0 : Env := fun _ => none

/-- An environment binding only `A`, to the literal text `${B}`. -/
def envRef : Env := fun n => if n = ['A'] then some ['$', '\x7b', 'B', '\x7d'] else none

/-- An environment binding only `A`, to `x`. -/
def envX : Env := fun n => if n = ['A'] then some ['x'] else none

/-- An environment binding only `X`, to the empty string. -/
def envEmptyX : Env := fun n => if n = ['X'] then some [] else none

/-- C1 counterexample: with `X` unset, `expand` on `a${X}b` returns `ab` with
ok=false — the unresolved `${X}` token is dropped from the output, not
appended unchanged as the claim states. -/
theorem expand_keeps_unresolved_cex :
    expand env0 1 ['a', '$', '\x7b', 'X', '\x7d', 'b'] = (['a', 'b'], false) ∧
    (['a', 'b'] : Str) ≠ ['a', '$', '\x7b', 'X', '\x7d', 'b'] := by
  have h := @expandSpec_unresolved env0 ['a'] ['X'] ['b'] (by decide) (by decide) rfl
  rw [expandSpec_no_marker env0 (s := ['b']) (by decide)] at h
  refine ⟨?_, by decide⟩
  rw [show (['a', '$', '\x7b', 'X', '\x7d', 'b'] : Str)
      = ['a'] ++ '$' :: '\x7b' :: (['X'] ++ '\x7d' :: ['b']) from rfl]
  rw [expand_eq_spec, h]
  rfl

/-- C1 (amended): when `expand` meets a terminated reference `${NAME}` whose
lookup is absent, it appends nothing for that reference — the `${NAME}` token
is dropped from the output buffer — records the failure, and the final ok is
false; the rest of the scan (prefix chunk and remaining suffix) is built as
usual. -/
theorem expand_drops_unresolved (env : Env) (iline : Nat) (a nm b : Str)
    (ha : hasMarker a = false) (hn : ('\x7d' : Char) ∉ nm) (hv : env nm = none) :
    expand env iline (a ++ '$' :: '\x7b' :: (nm ++ '\x7d' :: b))
      = (a ++ (expand env iline b).1, false) := by
  rw [expand_eq_spec, expand_eq_spec, expandSpec_unresolved env ha hn hv]
  rfl

theorem expand_drops_unresolved_witness :
    hasMarker ['a'] = false ∧ ('\x7d' : Char) ∉ (['X'] : Str) ∧ env0 ['X'] = none ∧
    expand env0 1 (['a'] ++ '$' :: '\x7b' :: (['X'] ++ '\x7d' :: []))
      = (['a'] ++ (expand env0 1 []).1, false) :=
  ⟨by decide, by decide, rfl,
    expand_drops_unresolved env0 1 ['a'] ['X'] [] (by decide) (by decide) rfl⟩

/-- C2: evaluation of the code at the failing input `a${b` (empty
environment): the text before the unterminated `${` is emitted twice — once
when the marker is found and once more by the trailing copy, because
`pre_pos` is never advanced — and the unterminated reference keeps `nvar`
nonzero, so the result is `aa${b` with ok=false; the claim instead describes
`a${b` copied verbatim once with ok=true. -/
theorem expand_unterminated_eval :
    expand env0 1 ['a', '$', '\x7b', 'b'] = (['a', 'a', '$', '\x7b', 'b'], false) := by
  rw [show (['a', '$', '\x7b', 'b'] : Str) = ['a'] ++ '$' :: '\x7b' :: ['b'] from rfl]
  rw [expand_eq_spec, expandSpec_unterminated env0 (by decide) (by decide)]
  rfl

/-- C3: a line with no `=`, and a line whose value fails expansion, are both
skipped with no call to `setenv` — the environment is returned unchanged —
and the loader continues with the remaining lines against that same
environment. -/
theorem do_init_skips_bad_lines (flags : Int) (env : Env) (i : Nat) (line : Str)
    (rest : List Str)
    (h : strFind line eqSign 0 = none ∨
      ∃ pos, strFind line eqSign 0 = some pos ∧
        (expand env i (strip_quotes (line.drop (pos + 1)))).2 = false) :
    do_init_line flags env i line = env ∧
    do_init_loop flags (line :: rest) i env = do_init_loop flags rest (i + 1) env := by
  have hline : do_init_line flags env i line = env := by
    unfold do_init_line
    rcases h with h | ⟨pos, hpos, hexp⟩
    · rw [h]
    · rw [hpos]
      dsimp only
      rw [hexp]
      rfl
  refine ⟨hline, ?_⟩
  conv_lhs => unfold do_init_loop
  rw [hline]

theorem do_init_skips_bad_lines_witness :
    strFind ['A'] eqSign 0 = none ∧
    do_init_line OptionsNone env0 1 ['A'] = env0 ∧
    do_init_loop OptionsNone [['A']] 1 env0 = do_init_loop OptionsNone [] 2 env0 :=
  ⟨by decide,
    (do_init_skips_bad_lines OptionsNone env0 1 ['A'] [] (Or.inl (by decide))).1,
    (do_init_skips_bad_lines OptionsNone env0 1 ['A'] [] (Or.inl (by decide))).2⟩

/-- C4: with a pre-existing binding of `x` to `old` and the well-formed line
`x=v` whose value expands successfully to `w`, loading with default flags
stores `w` (overwrite) while loading with the Preserve flag keeps `old`; the
skip decision is `setenv`'s existence check, so it applies for any stored
`old`, including the empty string. -/
theorem do_init_overwrite_policy (env : Env) (x old v w : Str)
    (hx : ('=' : Char) ∉ x) (hxne : x ≠ []) (hold : env x = some old)
    (hexp : expand env 1 (strip_quotes v) = (w, true)) :
    do_init OptionsNone [x ++ '=' :: v] env x = some w ∧
    do_init Preserve [x ++ '=' :: v] env x = some old := by
  constructor
  · rw [do_init_single, do_init_line_sets hx hexp, overwriteArg_none]
    exact setenv_overwrite_lookup hxne hx
  · rw [do_init_single, do_init_line_sets hx hexp, overwriteArg_preserve]
    exact setenv_preserve_lookup hold

theorem do_init_overwrite_policy_witness :
    (('=' : Char) ∉ (['X'] : Str)) ∧ (['X'] : Str) ≠ [] ∧ envEmptyX ['X'] = some [] ∧
    expand envEmptyX 1 (strip_quotes ['n', 'e', 'w']) = (['n', 'e', 'w'], true) ∧
    do_init OptionsNone [['X'] ++ '=' :: ['n', 'e', 'w']] envEmptyX ['X']
      = some ['n', 'e', 'w'] ∧
    do_init Preserve [['X'] ++ '=' :: ['n', 'e', 'w']] envEmptyX ['X'] = some [] := by
  have hexp : expand envEmptyX 1 (strip_quotes ['n', 'e', 'w']) = (['n', 'e', 'w'], true) := by
    rw [show strip_quotes ['n', 'e', 'w'] = ['n', 'e', 'w'] from by decide]
    exact expand_no_marker envEmptyX 1 (by decide)
  have h := do_init_overwrite_policy envEmptyX ['X'] [] ['n', 'e', 'w'] ['n', 'e', 'w']
    (by decide) (by decide) (by decide) hexp
  exact ⟨by decide, by decide, by decide, hexp, h.1, h.2⟩

/-- C5: `strip_quotes` strips exactly one layer — the first and last
characters — precisely when the string has length at least 2 and its first
and last characters are equal and both a double or both a single quote, and
returns the string unchanged otherwise; in particular a two-character `""`
becomes empty and a lone `"` is unchanged. -/
theorem strip_quotes_spec :
    (∀ s : Str, strip_quotes s =
      if 2 ≤ s.length ∧ s.head? = s.getLast? ∧
          (s.head? = some '\x22' ∨ s.head? = some '\x27')
        then (s.drop 1).take (s.length - 2) else s) ∧
    strip_quotes ['\x22', '\x22'] = [] ∧
    strip_quotes ['\x22'] = ['\x22'] := by
  refine ⟨?_, by decide, by decide⟩
  intro s
  unfold strip_quotes
  split
  · rename_i hlt
    rw [if_neg]
    rintro ⟨h1, -⟩
    omega
  · rename_i hge
    dsimp only
    have h0 : 0 < s.length := by omega
    have h1 : s.length - 1 < s.length := by omega
    have hh : s.head? = some s[0] := by
      rw [List.head?_eq_getElem?, List.getElem?_eq_getElem h0]
    have hl : s.getLast? = some s[s.length - 1] := by
      rw [List.getLast?_eq_getElem?, List.getElem?_eq_getElem h1]
    by_cases hcond : s[0] = s[s.length - 1] ∧ ('\x22' = s[0] ∨ '\x27' = s[0])
    · rw [if_pos hcond, if_pos]
      refine ⟨by omega, ?_, ?_⟩
      · rw [hh, hl, hcond.1]
      · rcases hcond.2 with h | h
        · left
          rw [hh, ← h]
        · right
          rw [hh, ← h]
    · rw [if_neg hcond, if_neg]
      rintro ⟨hc1, hc2, hc3⟩
      apply hcond
      constructor
      · rw [hh, hl] at hc2
        exact Option.some.inj hc2
      · rcases hc3 with h | h
        · rw [hh] at h
          left
          exact (Option.some.inj h).symm
        · rw [hh] at h
          right
          exact (Option.some.inj h).symm

/-- C6 counterexample: `A` is bound to the literal text `${B}` and `B` is
unset; expanding `${A}` succeeds (ok=true) yet the returned value is exactly
the unresolved reference `${B}` — a successful result can contain an
unresolved `${...}` reference, contradicting the claim. -/
theorem expand_ok_contains_reference_cex :
    expand envRef 1 ['$', '\x7b', 'A', '\x7d'] = (['$', '\x7b', 'B', '\x7d'], true) ∧
    envRef ['B'] = none ∧
    hasMarker (expand envRef 1 ['$', '\x7b', 'A', '\x7d']).1 = true := by
  have h := @expandSpec_resolved envRef [] ['A'] ['$', '\x7b', 'B', '\x7d'] []
    (by decide) (by decide) (by decide)
  rw [expandSpec_no_marker envRef (s := []) (by decide)] at h
  have hfirst : expand envRef 1 ['$', '\x7b', 'A', '\x7d']
      = (['$', '\x7b', 'B', '\x7d'], true) := by
    rw [show (['$', '\x7b', 'A', '\x7d'] : Str)
        = [] ++ '$' :: '\x7b' :: (['A'] ++ '\x7d' :: []) from rfl]
    rw [expand_eq_spec, h]
    rfl
  refine ⟨hfirst, by decide, ?_⟩
  rw [hfirst]
  decide

/-- C6 (amended): when every value in the lookup environment is nonempty and
contains neither `'$'` nor `'{'`, a successful expansion (ok=true) contains
no `"${"` occurrence at all — hence no unresolved `${...}` reference.
Without that restriction the property fails: a substituted value may itself
reintroduce `${...}` text, which a single pass leaves as-is. -/
theorem expand_ok_no_reference (env : Env) (iline : Nat) (s : Str)
    (henv : ∀ n v : Str, env n = some v → v ≠ [] ∧ ('$' : Char) ∉ v ∧ ('\x7b' : Char) ∉ v)
    (hok : (expand env iline s).2 = true) :
    hasMarker (expand env iline s).1 = false := by
  rw [expand_eq_spec] at hok ⊢
  have h0 : (expandSpec env s).2 = 0 := by
    simpa using hok
  exact expandSpec_clean env henv s h0

theorem expand_ok_no_reference_witness :
    (expand envX 1 ['h', 'i']).2 = true ∧
    hasMarker (expand envX 1 ['h', 'i']).1 = false := by
  have hok : (expand envX 1 ['h', 'i']).2 = true := by
    rw [expand_no_marker envX 1 (by decide)]
  refine ⟨hok, expand_ok_no_reference envX 1 ['h', 'i'] ?_ hok⟩
  intro n v h
  unfold envX at h
  split at h
  · cases h
    exact ⟨by decide, by decide, by decide⟩
  · cases h

/-- C7 counterexample: the line `=x` contains `=` (at position 0), and the
name the loader builds — the substring before the first `=` — is empty,
refuting the claimed non-emptiness of the Assignment's name. -/
theorem assignment_name_nonempty_cex :
    ¬ (∀ (line : Str) (pos : Nat), strFind line eqSign 0 = some pos →
        line.take pos ≠ []) := by
  intro h
  exact h ['=', 'x'] 0 (by decide) rfl

/-- C7 (amended): for every line containing `=`, the name the loader builds —
`line.take pos` for the first `=` position `pos` — never contains `=`; it
may, however, be empty (exactly when the line starts with `=`). -/
theorem assignment_name_no_eq (line : Str) (pos : Nat)
    (h : strFind line eqSign 0 = some pos) : ('=' : Char) ∉ line.take pos := by
  intro hmem
  obtain ⟨u, w, huw⟩ := List.append_of_mem hmem
  have hlen : u.length < pos := by
    have hl := congrArg List.length huw
    simp at hl
    omega
  have hline : line = u ++ '=' :: (w ++ line.drop pos) := by
    conv_lhs => rw [← List.take_append_drop pos line]
    rw [huw]
    simp
  have hmatch : (line.drop u.length).take eqSign.length = eqSign := by
    conv_lhs => rw [hline, List.drop_left]
    simp [eqSign, List.take]
  exact strFind_min h u.length (Nat.zero_le _) hlen hmatch

theorem assignment_name_no_eq_witness :
    strFind ['A', '=', 'b'] eqSign 0 = some 1 ∧
    ('=' : Char) ∉ ((['A', '=', 'b'] : Str).take 1) :=
  ⟨by decide, assignment_name_no_eq ['A', '=', 'b'] 1 (by decide)⟩

/-- C8: expansion is single-pass: a resolved `${nm}` contributes its
looked-up value verbatim into the output — even when that value itself
contains `${...}` text, it is not re-expanded — and the scan continues on
the suffix after the `}` only. -/
theorem expand_single_pass (env : Env) (iline : Nat) (a nm v b : Str)
    (ha : hasMarker a = false) (hn : ('\x7d' : Char) ∉ nm) (hv : env nm = some v) :
    expand env iline (a ++ '$' :: '\x7b' :: (nm ++ '\x7d' :: b))
      = (a ++ v ++ (expand env iline b).1, (expand env iline b).2) := by
  rw [expand_eq_spec, expand_eq_spec, expandSpec_resolved env ha hn hv]

theorem expand_single_pass_witness :
    hasMarker ['h'] = false ∧ ('\x7d' : Char) ∉ (['A'] : Str) ∧
    envRef ['A'] = some ['$', '\x7b', 'B', '\x7d'] ∧
    expand envRef 1 (['h'] ++ '$' :: '\x7b' :: (['A'] ++ '\x7d' :: ['t']))
      = (['h'] ++ ['$', '\x7b', 'B', '\x7d'] ++ (expand envRef 1 ['t']).1,
        (expand envRef 1 ['t']).2) :=
  ⟨by decide, by decide, by decide,
    expand_single_pass envRef 1 ['h'] ['A'] ['$', '\x7b', 'B', '\x7d'] ['t']
      (by decide) (by decide) (by decide)⟩

/-- C9: `getenv` returns the stored value whenever the name is present — even
when that value is the empty string — and falls back to the default exactly
on the absent branch (`std::getenv` returning null); concretely, a
present-but-empty `X` yields the empty string rather than the default, and an
unset `U` yields the default. -/
theorem getenv_default_semantics :
    (∀ (env : Env) (name dflt : Str), getenv env name dflt = (env name).getD dflt) ∧
    getenv envEmptyX ['X'] ['f'] = [] ∧
    getenv envEmptyX ['U'] ['f'] = ['f'] := by
  refine ⟨?_, by decide, by decide⟩
  intro env name dflt
  unfold getenv
  cases env name <;> rfl

/-- C10: quote stripping is applied before variable expansion: loading the
single line `x="a${nm}b"` (with `nm` bound to `v`, and `a`, `b` free of
further markers) removes the outer quotes first and then expands the enclosed
reference, so the stored value is the unquoted text with `v` substituted. -/
theorem do_init_strips_then_expands (env : Env) (x a nm v b : Str)
    (hx : ('=' : Char) ∉ x) (hxne : x ≠ [])
    (ha : hasMarker a = false) (hn : ('\x7d' : Char) ∉ nm)
    (hv : env nm = some v) (hb : hasMarker b = false) :
    do_init OptionsNone
      [x ++ '=' :: '\x22' :: ((a ++ '$' :: '\x7b' :: (nm ++ '\x7d' :: b)) ++ ['\x22'])]
      env x = some (a ++ v ++ b) := by
  have hexp : expand env 1
      (strip_quotes ('\x22' :: ((a ++ '$' :: '\x7b' :: (nm ++ '\x7d' :: b)) ++ ['\x22'])))
      = (a ++ v ++ b, true) := by
    rw [strip_quotes_wrap (Or.inl rfl)]
    rw [expand_eq_spec, expandSpec_resolved env ha hn hv,
      expandSpec_no_marker env (s := b) hb]
    rfl
  rw [do_init_single, do_init_line_sets hx hexp, overwriteArg_none]
  exact setenv_overwrite_lookup hxne hx

theorem do_init_strips_then_expands_witness :
    (('=' : Char) ∉ (['X'] : Str)) ∧ (['X'] : Str) ≠ [] ∧
    hasMarker ['h'] = false ∧ ('\x7d' : Char) ∉ (['A'] : Str) ∧
    envX ['A'] = some ['x'] ∧ hasMarker ['t'] = false ∧
    do_init OptionsNone
      [['X'] ++ '=' :: '\x22' ::
        ((['h'] ++ '$' :: '\x7b' :: (['A'] ++ '\x7d' :: ['t'])) ++ ['\x22'])]
      envX ['X'] = some (['h'] ++ ['x'] ++ ['t']) :=
  ⟨by decide, by decide, by decide, by decide, by decide, by decide,
    do_init_strips_then_expands envX ['X'] ['h'] ['A'] ['x'] ['t']
      (by decide) (by decide) (by decide) (by decide) (by decide) (by decide)⟩

end Dotenv
